import Mathlib

/-!
Verification of the Boggle word-grid program (src/boggle.py) against its
natural-language specification.  The Python source is shallowly embedded:
the board is a list of rows of characters, words are lists of characters,
Python sets are modelled as lists with guarded insertion (membership is the
observable), and the pygame event/render loop is modelled as an explicit
state-transition function on a GameState record.
-/

set_option maxHeartbeats 1000000

/-- A grid position, as in the source a pair of integer coordinates. -/
abbrev Pos := ℤ × ℤ

/-- A word: the character sequence of a Python string. -/
abbrev Word := List Char

/-- A board: list of rows, each a list of single letters (board[r][c]). -/
abbrev Board := List (List Char)

/-- Lexicographic comparison of words by code point, as Python compares
strings when sorting. -/
def lexLe : Word → Word → Bool
  | [], _ => true
  | _ :: _, [] => false
  | a :: as, b :: bs => if a = b then lexLe as bs else decide (a.toNat < b.toNat)

/-- Insert a word into an already sorted list, keeping it sorted. -/
def insertSorted (w : Word) : List Word → List Word
  | [] => [w]
  | x :: xs => if lexLe w x then w :: x :: xs else x :: insertSorted w xs

/-- Sorting of word lists; Python list.sort and the sorted builtin produce
the unique nondecreasing arrangement, which any sort yields here because
words comparing equal under lexLe coincide. -/
def sortWords (l : List Word) : List Word := l.foldr insertSorted []

theorem mem_insertSorted (w a : Word) (l : List Word) :
    a ∈ insertSorted w l ↔ a = w ∨ a ∈ l := by
  induction l with
  | nil => simp [insertSorted]
  | cons x xs ih =>
      by_cases h : lexLe w x = true
      · simp [insertSorted, h]
      · simp only [insertSorted, h, if_false, Bool.false_eq_true, List.mem_cons, ih]
        tauto

theorem mem_sortWords (a : Word) (l : List Word) : a ∈ sortWords l ↔ a ∈ l := by
  induction l with
  | nil => simp [sortWords]
  | cons x xs ih =>
      simp only [sortWords, List.foldr_cons] at *
      rw [mem_insertSorted, ih, List.mem_cons]

theorem length_insertSorted (w : Word) (l : List Word) :
    (insertSorted w l).length = l.length + 1 := by
  induction l with
  | nil => rfl
  | cons x xs ih =>
      by_cases h : lexLe w x = true
      · simp [insertSorted, h]
      · simp [insertSorted, h, ih]

theorem length_sortWords (l : List Word) : (sortWords l).length = l.length := by
  induction l with
  | nil => rfl
  | cons x xs ih =>
      simp only [sortWords, List.foldr_cons] at *
      rw [length_insertSorted, ih, List.length_cons]

/-- board[r][c] for integer coordinates; only evaluated at in-bounds
positions in the source, so a total default-valued read is faithful there. -/
def letterAt (board : Board) (p : Pos) : Char :=
  (board.getD p.1.toNat []).getD p.2.toNat 'A'

/-- cols = len(board[0]) if rows else 0, as computed in find_all_words. -/
def colsOf (board : Board) : ℕ :=
  if board.length = 0 then 0 else (board.headD []).length

/-- 0 <= r < rows and 0 <= c < cols, the bounds test of the source. -/
def inBoundsPos (rows cols : ℕ) (p : Pos) : Prop :=
  0 ≤ p.1 ∧ p.1 < (rows : ℤ) ∧ 0 ≤ p.2 ∧ p.2 < (cols : ℤ)

instance (rows cols : ℕ) (p : Pos) : Decidable (inBoundsPos rows cols p) :=
  inferInstanceAs
    (Decidable (0 ≤ p.1 ∧ p.1 < (rows : ℤ) ∧ 0 ≤ p.2 ∧ p.2 < (cols : ℤ)))

/-- is_adjacent from the source: both coordinate deltas have absolute value
at most 1 and the positions differ. -/
def is_adjacent (p1 p2 : Pos) : Prop :=
  (p1.1 - p2.1).natAbs ≤ 1 ∧ (p1.2 - p2.2).natAbs ≤ 1 ∧ ¬(p1.1 = p2.1 ∧ p1.2 = p2.2)

instance (p1 p2 : Pos) : Decidable (is_adjacent p1 p2) :=
  inferInstanceAs
    (Decidable ((p1.1 - p2.1).natAbs ≤ 1 ∧ (p1.2 - p2.2).natAbs ≤ 1 ∧
      ¬(p1.1 = p2.1 ∧ p1.2 = p2.2)))

/-- compute_points from the source: the word-length scoring table. -/
def compute_points (word : Word) : ℕ :=
  let length := word.length
  if length = 3 ∨ length = 4 then 1
  else if length = 5 then 2
  else if length = 6 then 3
  else if length > 6 then 5
  else 0

/-- All nonempty leading substrings word[:i+1] for i < len(word). -/
def prefixesOf (word : Word) : List Word :=
  (List.range word.length).map (fun i => word.take (i + 1))

/-- build_prefix_set from the source: every prefix of every dictionary
word.  The Python set is modelled as a list; membership is the observable. -/
def build_prefix_set (dictionary : List Word) : List Word :=
  dictionary.flatMap prefixesOf

theorem mem_build_prefix_set (dictionary : List Word) (s : Word) :
    s ∈ build_prefix_set dictionary ↔
      ∃ w ∈ dictionary, ∃ k, 1 ≤ k ∧ k ≤ w.length ∧ s = w.take k := by
  simp only [build_prefix_set, List.mem_flatMap, prefixesOf, List.mem_map,
    List.mem_range]
  constructor
  · rintro ⟨w, hw, i, hi, rfl⟩
    exact ⟨w, hw, i + 1, Nat.succ_le_succ (Nat.zero_le i), hi, rfl⟩
  · rintro ⟨w, hw, k, hk1, hk2, rfl⟩
    exact ⟨w, hw, k - 1, by omega, by congr 1; omega⟩

/-- Python str.strip: drop whitespace from both ends. -/
def stripChars (l : List Char) : List Char :=
  ((l.dropWhile Char.isWhitespace).reverse.dropWhile Char.isWhitespace).reverse

/-- load_dictionary from the source.  The file system is modelled as an
optional list of lines: none is a missing file (the os.path.exists branch),
some gives the lines read.  Each line is stripped, uppercased, and added to
the set when nonempty. -/
def load_dictionary (file : Option (List Word)) : List Word :=
  match file with
  | none => []
  | some lns =>
      lns.foldl
        (fun d line =>
          let word := (stripChars line).map Char.toUpper
          if word ≠ [] then d.insert word else d)
        []

/-!  The breadth-first word search of find_all_words.  A queue entry is the
triple ((row, col), current_word, visited_positions) of the source. -/

/-- One BFS queue entry of find_all_words. -/
structure Entry where
  pos : Pos
  word : Word
  visited : Finset Pos
deriving DecidableEq

/-- The in-bounds cells of a rows-by-cols grid, as a finite set. -/
def cellsFinset (rows cols : ℕ) : Finset Pos :=
  (Finset.range rows ×ˢ Finset.range cols).image
    (fun rc => ((rc.1 : ℤ), (rc.2 : ℤ)))

theorem mem_cellsFinset (rows cols : ℕ) (p : Pos) :
    p ∈ cellsFinset rows cols ↔ inBoundsPos rows cols p := by
  constructor
  · intro h
    simp only [cellsFinset, Finset.mem_image, Finset.mem_product,
      Finset.mem_range] at h
    obtain ⟨⟨r, c⟩, ⟨hr, hc⟩, rfl⟩ := h
    refine ⟨Int.ofNat_nonneg r, ?_, Int.ofNat_nonneg c, ?_⟩ <;>
      simpa using by omega
  · rintro ⟨h1, h2, h3, h4⟩
    simp only [cellsFinset, Finset.mem_image, Finset.mem_product,
      Finset.mem_range]
    refine ⟨(p.1.toNat, p.2.toNat), ⟨by omega, by omega⟩, ?_⟩
    have e1 : ((p.1.toNat : ℤ)) = p.1 := Int.toNat_of_nonneg h1
    have e2 : ((p.2.toNat : ℤ)) = p.2 := Int.toNat_of_nonneg h3
    simp [e1, e2]

theorem card_cellsFinset (rows cols : ℕ) :
    (cellsFinset rows cols).card = rows * cols := by
  unfold cellsFinset
  rw [Finset.card_image_of_injective, Finset.card_product, Finset.card_range,
    Finset.card_range]
  rintro ⟨a, b⟩ ⟨c, d⟩ h
  simp only [Prod.mk.injEq, Int.natCast_inj] at h
  simp [Prod.ext_iff, h.1, h.2]

/-- The 3-by-3 block of candidate neighbour coordinates scanned by the two
nested for-loops over range(r-1, r+2) and range(c-1, c+2). -/
def neighborCandidates (p : Pos) : List Pos :=
  [p.1 - 1, p.1, p.1 + 1].flatMap
    (fun nr => [(nr, p.2 - 1), (nr, p.2), (nr, p.2 + 1)])

theorem neighborCandidates_eq (p : Pos) :
    neighborCandidates p =
      [(p.1 - 1, p.2 - 1), (p.1 - 1, p.2), (p.1 - 1, p.2 + 1),
       (p.1, p.2 - 1), (p.1, p.2), (p.1, p.2 + 1),
       (p.1 + 1, p.2 - 1), (p.1 + 1, p.2), (p.1 + 1, p.2 + 1)] := rfl

theorem mem_neighborCandidates (p q : Pos) :
    q ∈ neighborCandidates p ↔ (p.1 - q.1).natAbs ≤ 1 ∧ (p.2 - q.2).natAbs ≤ 1 := by
  obtain ⟨q1, q2⟩ := q
  rw [neighborCandidates_eq]
  simp only [List.mem_cons, List.not_mem_nil, or_false, Prod.mk.injEq]
  omega

/-- The enqueue step of find_all_words: for every candidate neighbour that
is in bounds and not yet visited, extend the word with that cell letter and
keep the extension when it is still a valid prefix. -/
def childEntries (board : Board) (rows cols : ℕ) (prefix_set : List Word)
    (e : Entry) : List Entry :=
  (neighborCandidates e.pos).filterMap
    (fun q =>
      if inBoundsPos rows cols q ∧ q ∉ e.visited then
        (if e.word ++ [letterAt board q] ∈ prefix_set then
          some ⟨q, e.word ++ [letterAt board q], insert q e.visited⟩
        else none)
      else none)

theorem mem_childEntries (board : Board) (rows cols : ℕ)
    (prefix_set : List Word) (e e' : Entry) :
    e' ∈ childEntries board rows cols prefix_set e ↔
      ∃ q, q ∈ neighborCandidates e.pos ∧ inBoundsPos rows cols q ∧
        q ∉ e.visited ∧ e.word ++ [letterAt board q] ∈ prefix_set ∧
        e' = ⟨q, e.word ++ [letterAt board q], insert q e.visited⟩ := by
  simp only [childEntries, List.mem_filterMap]
  constructor
  · rintro ⟨q, hq, h⟩
    split_ifs at h with h1 h2
    simp only [Option.some.injEq] at h
    exact ⟨q, hq, h1.1, h1.2, h2, h.symm⟩
  · rintro ⟨q, hq, h1, h2, h3, rfl⟩
    refine ⟨q, hq, ?_⟩
    rw [if_pos ⟨h1, h2⟩, if_pos h3]

/-- Measure of one queue entry: the visited set can still grow by at most
rows*cols minus the in-bounds cells already visited. -/
def entryMeasure (rows cols : ℕ) (e : Entry) : ℕ :=
  10 ^ (rows * cols - (e.visited ∩ cellsFinset rows cols).card)

/-- Measure of the whole queue. -/
def queueMeasure (rows cols : ℕ) (queue : List Entry) : ℕ :=
  (queue.map (entryMeasure rows cols)).sum

theorem childEntries_visited_card (board : Board) (rows cols : ℕ)
    (prefix_set : List Word) (e e' : Entry)
    (h : e' ∈ childEntries board rows cols prefix_set e) :
    (e'.visited ∩ cellsFinset rows cols).card
      = (e.visited ∩ cellsFinset rows cols).card + 1 := by
  rw [mem_childEntries] at h
  obtain ⟨q, _, hb, hnv, _, rfl⟩ := h
  have hqc : q ∈ cellsFinset rows cols := (mem_cellsFinset rows cols q).mpr hb
  simp only [Finset.insert_inter_of_mem hqc]
  exact Finset.card_insert_of_not_mem (fun hx => hnv (Finset.mem_inter.mp hx).1)

theorem visited_card_le (rows cols : ℕ) (e : Entry) :
    (e.visited ∩ cellsFinset rows cols).card ≤ rows * cols := by
  calc (e.visited ∩ cellsFinset rows cols).card
      ≤ (cellsFinset rows cols).card :=
        Finset.card_le_card (Finset.inter_subset_right)
    _ = rows * cols := card_cellsFinset rows cols

theorem length_childEntries_le (board : Board) (rows cols : ℕ)
    (prefix_set : List Word) (e : Entry) :
    (childEntries board rows cols prefix_set e).length ≤ 9 := by
  calc (childEntries board rows cols prefix_set e).length
      ≤ (neighborCandidates e.pos).length := List.length_filterMap_le _ _
    _ = 9 := by simp [neighborCandidates, List.flatMap]

theorem childEntries_of_full (board : Board) (rows cols : ℕ)
    (prefix_set : List Word) (e : Entry)
    (h : (e.visited ∩ cellsFinset rows cols).card = rows * cols) :
    childEntries board rows cols prefix_set e = [] := by
  have hall : e.visited ∩ cellsFinset rows cols = cellsFinset rows cols := by
    apply Finset.eq_of_subset_of_card_le Finset.inter_subset_right
    rw [h, card_cellsFinset]
  rw [List.eq_nil_iff_forall_not_mem]
  intro e' he'
  rw [mem_childEntries] at he'
  obtain ⟨q, _, hb, hnv, _, _⟩ := he'
  have hqc : q ∈ cellsFinset rows cols := (mem_cellsFinset rows cols q).mpr hb
  rw [← hall] at hqc
  exact hnv (Finset.mem_inter.mp hqc).1

theorem queueMeasure_childEntries_lt (board : Board) (rows cols : ℕ)
    (prefix_set : List Word) (e : Entry) :
    queueMeasure rows cols (childEntries board rows cols prefix_set e)
      < entryMeasure rows cols e := by
  set k := rows * cols - (e.visited ∩ cellsFinset rows cols).card with hk
  rcases Nat.eq_zero_or_pos k with hk0 | hkpos
  · have hfull : (e.visited ∩ cellsFinset rows cols).card = rows * cols := by
      have := visited_card_le rows cols e
      omega
    rw [childEntries_of_full board rows cols prefix_set e hfull]
    unfold queueMeasure entryMeasure
    simp only [List.map_nil, List.sum_nil]
    positivity
  · have hchild : ∀ x ∈ (childEntries board rows cols prefix_set e).map
        (entryMeasure rows cols), x = 10 ^ (k - 1) := by
      intro x hx
      rw [List.mem_map] at hx
      obtain ⟨e', he', rfl⟩ := hx
      have hc := childEntries_visited_card board rows cols prefix_set e e' he'
      unfold entryMeasure
      rw [hc]
      have harith : rows * cols - ((e.visited ∩ cellsFinset rows cols).card + 1)
          = k - 1 := by omega
      rw [harith]
    have hsum : queueMeasure rows cols (childEntries board rows cols prefix_set e)
        = (childEntries board rows cols prefix_set e).length * 10 ^ (k - 1) := by
      unfold queueMeasure
      rw [List.eq_replicate_of_mem hchild, List.sum_replicate, smul_eq_mul,
        List.length_map]
    rw [hsum]
    have hlen := length_childEntries_le board rows cols prefix_set e
    have : (childEntries board rows cols prefix_set e).length * 10 ^ (k - 1)
        ≤ 9 * 10 ^ (k - 1) := Nat.mul_le_mul_right _ hlen
    have h10 : (10 : ℕ) ^ k = 10 * 10 ^ (k - 1) := by
      conv_lhs => rw [show k = (k - 1) + 1 by omega]
      ring
    unfold entryMeasure
    rw [← hk, h10]
    have hpow : 0 < (10 : ℕ) ^ (k - 1) := by positivity
    omega

/-- The entries enqueued while processing one entry: the extensions when
the current word is still a valid prefix, nothing otherwise (the pruning
of find_all_words). -/
def stepKids (board : Board) (rows cols : ℕ) (prefix_set : List Word)
    (e : Entry) : List Entry :=
  if e.word ∈ prefix_set then childEntries board rows cols prefix_set e else []

theorem queueMeasure_stepKids_lt (board : Board) (rows cols : ℕ)
    (prefix_set : List Word) (e : Entry) :
    queueMeasure rows cols (stepKids board rows cols prefix_set e)
      < entryMeasure rows cols e := by
  unfold stepKids
  split_ifs
  · exact queueMeasure_childEntries_lt board rows cols prefix_set e
  · unfold queueMeasure entryMeasure
    simp only [List.map_nil, List.sum_nil]
    positivity

theorem queueMeasure_append (rows cols : ℕ) (q1 q2 : List Entry) :
    queueMeasure rows cols (q1 ++ q2)
      = queueMeasure rows cols q1 + queueMeasure rows cols q2 := by
  unfold queueMeasure
  rw [List.map_append, List.sum_append]

theorem queueMeasure_cons (rows cols : ℕ) (e : Entry) (q : List Entry) :
    queueMeasure rows cols (e :: q)
      = entryMeasure rows cols e + queueMeasure rows cols q := by
  unfold queueMeasure
  rw [List.map_cons, List.sum_cons]

/-- The while-loop of find_all_words.  Each iteration pops the front entry,
records its word when it has length at least 3 and is in the dictionary,
and, when the word is still a valid prefix, appends the extensions to the
back of the queue. -/
def bfsLoop (board : Board) (rows cols : ℕ) (dict prefix_set : List Word)
    (queue : List Entry) (found : List Word) : List Word :=
  match queue with
  | [] => found
  | e :: rest =>
      bfsLoop board rows cols dict prefix_set
        (rest ++ stepKids board rows cols prefix_set e)
        (if 3 ≤ e.word.length ∧ e.word ∈ dict then found.insert e.word else found)
termination_by queueMeasure rows cols queue
decreasing_by
  have h1 := queueMeasure_stepKids_lt board rows cols prefix_set e
  have h2 := queueMeasure_append rows cols rest
    (stepKids board rows cols prefix_set e)
  have h3 := queueMeasure_cons rows cols e rest
  omega

/-- A fuel-indexed version of the search loop, used to state termination:
the loop finishes within queueMeasure-many iterations. -/
def bfsLoopFuel (board : Board) (rows cols : ℕ) (dict prefix_set : List Word) :
    ℕ → List Entry → List Word → Option (List Word)
  | _, [], found => some found
  | 0, _ :: _, _ => none
  | fuel + 1, e :: rest, found =>
      bfsLoopFuel board rows cols dict prefix_set fuel
        (rest ++ stepKids board rows cols prefix_set e)
        (if 3 ≤ e.word.length ∧ e.word ∈ dict then found.insert e.word else found)

/-- The initial queue entry enqueued for a start cell:
((r, c), board[r][c], {(r, c)}). -/
def startEntry (board : Board) (p : Pos) : Entry :=
  ⟨p, [letterAt board p], {p}⟩

/-- The row-major enumeration of all start cells of the two outer loops. -/
def startCells (rows cols : ℕ) : List Pos :=
  (List.range rows).flatMap
    (fun r => (List.range cols).map (fun c => (Int.ofNat r, Int.ofNat c)))

/-- find_all_words from the source: run the search from every start cell,
accumulating found words in one shared set, and return them sorted. -/
def find_all_words (board : Board) (dict prefix_set : List Word) : List Word :=
  sortWords
    ((startCells board.length (colsOf board)).foldl
      (fun found p =>
        bfsLoop board board.length (colsOf board) dict prefix_set
          [startEntry board p] found)
      [])

/-- One expansion step of the search: the popped entry passes the prefix
pruning test and the next entry is one of its enqueued extensions. -/
def EStep (board : Board) (rows cols : ℕ) (prefix_set : List Word)
    (e e' : Entry) : Prop :=
  e.word ∈ prefix_set ∧ e' ∈ childEntries board rows cols prefix_set e

/-- Reachability between queue entries through repeated expansion steps. -/
def Reaches (board : Board) (rows cols : ℕ) (prefix_set : List Word) :
    Entry → Entry → Prop :=
  Relation.ReflTransGen (EStep board rows cols prefix_set)

/-- An entry whose word is recorded by the loop body. -/
def GoodEntry (dict : List Word) (e : Entry) : Prop :=
  3 ≤ e.word.length ∧ e.word ∈ dict

theorem mem_stepKids (board : Board) (rows cols : ℕ) (prefix_set : List Word)
    (e e' : Entry) :
    e' ∈ stepKids board rows cols prefix_set e
      ↔ EStep board rows cols prefix_set e e' := by
  unfold stepKids EStep
  split_ifs with h <;> simp [h]

theorem reaches_head_iff (board : Board) (rows cols : ℕ)
    (dict prefix_set : List Word) (e : Entry) (w : Word) :
    (∃ e2, Reaches board rows cols prefix_set e e2 ∧ GoodEntry dict e2 ∧
        e2.word = w)
      ↔ (GoodEntry dict e ∧ e.word = w) ∨
        ∃ e1 ∈ stepKids board rows cols prefix_set e,
          ∃ e2, Reaches board rows cols prefix_set e1 e2 ∧ GoodEntry dict e2 ∧
            e2.word = w := by
  constructor
  · rintro ⟨e2, hr, hg, hw⟩
    rcases Relation.ReflTransGen.cases_head hr with heq | ⟨c, hc, hr2⟩
    · left
      rw [← heq] at hg hw
      exact ⟨hg, hw⟩
    · right
      exact ⟨c, (mem_stepKids board rows cols prefix_set e c).mpr hc,
        e2, hr2, hg, hw⟩
  · rintro (⟨hg, hw⟩ | ⟨e1, he1, e2, hr, hg, hw⟩)
    · exact ⟨e, Relation.ReflTransGen.refl, hg, hw⟩
    · exact ⟨e2, Relation.ReflTransGen.head
        ((mem_stepKids board rows cols prefix_set e e1).mp he1) hr, hg, hw⟩

theorem bfsLoop_nil (board : Board) (rows cols : ℕ) (dict prefix_set : List Word)
    (found : List Word) :
    bfsLoop board rows cols dict prefix_set [] found = found := by
  rw [bfsLoop]

theorem bfsLoop_cons (board : Board) (rows cols : ℕ) (dict prefix_set : List Word)
    (e : Entry) (rest : List Entry) (found : List Word) :
    bfsLoop board rows cols dict prefix_set (e :: rest) found
      = bfsLoop board rows cols dict prefix_set
          (rest ++ stepKids board rows cols prefix_set e)
          (if 3 ≤ e.word.length ∧ e.word ∈ dict then found.insert e.word
           else found) := by
  rw [bfsLoop]

/-- Characterization of the search loop: a word is in the result exactly
when it was already recorded, or some entry of the queue reaches an entry
whose word is recorded. -/
theorem mem_bfsLoop (board : Board) (rows cols : ℕ) (dict prefix_set : List Word)
    (queue : List Entry) (found : List Word) (w : Word) :
    w ∈ bfsLoop board rows cols dict prefix_set queue found ↔
      w ∈ found ∨ ∃ e ∈ queue,
        ∃ e2, Reaches board rows cols prefix_set e e2 ∧ GoodEntry dict e2 ∧
          e2.word = w := by
  induction queue, found using bfsLoop.induct board rows cols dict prefix_set with
  | case1 found =>
      rw [bfsLoop_nil]
      simp
  | case2 found e rest ih =>
      simp only [dite_eq_ite] at ih
      rw [bfsLoop_cons, ih]
      have hfound : w ∈ (if 3 ≤ e.word.length ∧ e.word ∈ dict
            then found.insert e.word else found)
          ↔ w ∈ found ∨ (GoodEntry dict e ∧ e.word = w) := by
        split_ifs with hg
        · rw [List.mem_insert_iff]
          unfold GoodEntry
          constructor
          · rintro (rfl | h)
            · exact Or.inr ⟨hg, rfl⟩
            · exact Or.inl h
          · rintro (h | ⟨_, rfl⟩)
            · exact Or.inr h
            · exact Or.inl rfl
        · unfold GoodEntry
          tauto
      have hhead := reaches_head_iff board rows cols dict prefix_set e w
      simp only [hfound, List.mem_append, List.mem_cons]
      constructor
      · rintro ((hf | hgw) | ⟨e1, (h1 | h1), h2⟩)
        · exact Or.inl hf
        · exact Or.inr ⟨e, Or.inl rfl, hhead.mpr (Or.inl hgw)⟩
        · exact Or.inr ⟨e1, Or.inr h1, h2⟩
        · exact Or.inr ⟨e, Or.inl rfl, hhead.mpr (Or.inr ⟨e1, h1, h2⟩)⟩
      · rintro (hf | ⟨e1, (rfl | h1), h2⟩)
        · exact Or.inl (Or.inl hf)
        · rcases hhead.mp h2 with hgw | ⟨e3, h3, h4⟩
          · exact Or.inl (Or.inr hgw)
          · exact Or.inr ⟨e3, Or.inr h3, h4⟩
        · exact Or.inr ⟨e1, Or.inl h1, h2⟩

/-- Modelled from the spec: a simple path — pairwise-distinct positions,
consecutively 8-adjacent, all on the grid. -/
def IsSimplePath (rows cols : ℕ) (path : List Pos) : Prop :=
  path.Nodup ∧ path.Chain' is_adjacent ∧ ∀ q ∈ path, inBoundsPos rows cols q

/-- Modelled from the spec: the word is spelled by some simple path of
cells on the board. -/
def SpelledOnBoard (board : Board) (w : Word) : Prop :=
  ∃ path : List Pos, IsSimplePath board.length (colsOf board) path ∧
    path.map (letterAt board) = w

/-- Soundness invariant: every entry reachable from a start entry is
described by a simple path through the grid. -/
theorem reaches_to_path (board : Board) (rows cols : ℕ) (prefix_set : List Word)
    (p0 : Pos) (hbd0 : inBoundsPos rows cols p0) (e : Entry)
    (h : Reaches board rows cols prefix_set (startEntry board p0) e) :
    ∃ path : List Pos, path ≠ [] ∧ path.Nodup ∧ path.Chain' is_adjacent ∧
      (∀ q ∈ path, inBoundsPos rows cols q) ∧
      path.map (letterAt board) = e.word ∧
      path.getLast? = some e.pos ∧ path.toFinset = e.visited := by
  induction h with
  | refl =>
      refine ⟨[p0], by simp, by simp, by simp, by simpa using hbd0, rfl, rfl, ?_⟩
      simp [startEntry]
  | tail hab hbc ih =>
      obtain ⟨path, hne, hnd, hch, hbd, hmap, hlast, hfin⟩ := ih
      obtain ⟨hps, hchild⟩ := hbc
      rw [mem_childEntries] at hchild
      obtain ⟨q, hq, hqb, hqnv, hqps, rfl⟩ := hchild
      rename_i b
      have hposmem : b.pos ∈ path := by
        obtain ⟨ys, hys⟩ := List.getLast?_eq_some_iff.mp hlast
        rw [hys]
        simp
      have hposvis : b.pos ∈ b.visited := by
        rw [← hfin]
        exact List.mem_toFinset.mpr hposmem
      have hqnotin : q ∉ path := by
        intro hmem
        exact hqnv (by rw [← hfin]; exact List.mem_toFinset.mpr hmem)
      have hqne : q ≠ b.pos := by
        intro heq
        rw [heq] at hqnv
        exact hqnv hposvis
      refine ⟨path ++ [q], by simp, ?_, ?_, ?_, ?_, ?_, ?_⟩
      · rw [List.nodup_append]
        refine ⟨hnd, by simp, ?_⟩
        intro x hx hx2
        rw [List.mem_singleton] at hx2
        subst hx2
        exact hqnotin hx
      · rw [List.chain'_append]
        refine ⟨hch, by simp, ?_⟩
        intro x hx y hy
        rw [hlast, Option.mem_def, Option.some.injEq] at hx
        simp only [List.head?_cons, Option.mem_def, Option.some.injEq] at hy
        subst hx
        subst hy
        rw [mem_neighborCandidates] at hq
        refine ⟨hq.1, hq.2, ?_⟩
        intro ⟨h1, h2⟩
        exact hqne (Prod.ext h1.symm h2.symm)
      · intro x hx
        rcases List.mem_append.mp hx with hx | hx
        · exact hbd x hx
        · rw [List.mem_singleton] at hx
          subst hx
          exact hqb
      · rw [List.map_append, hmap]
        rfl
      · simp
      · rw [List.toFinset_append]
        simp only [List.toFinset_cons, List.toFinset_nil,
          insert_emptyc_eq]
        rw [Finset.union_comm, ← Finset.insert_eq, hfin]

/-- Completeness invariant: a simple path all of whose spelled prefixes lie
in the prefix set induces a reachable entry describing it. -/
theorem path_to_reaches (board : Board) (rows cols : ℕ) (prefix_set : List Word)
    (path : List Pos) (p0 : Pos) :
    path.head? = some p0 →
    path.Nodup → path.Chain' is_adjacent →
    (∀ q ∈ path, inBoundsPos rows cols q) →
    (∀ k, 1 ≤ k → k ≤ path.length →
      (path.take k).map (letterAt board) ∈ prefix_set) →
    ∃ e : Entry, Reaches board rows cols prefix_set (startEntry board p0) e ∧
      e.word = path.map (letterAt board) ∧ e.visited = path.toFinset ∧
      path.getLast? = some e.pos := by
  induction path using List.reverseRecOn with
  | nil => intro hhead; simp at hhead
  | append_singleton init q ih =>
      intro hhead hnd hch hbd hpref
      by_cases hinitne : init = []
      · subst hinitne
        simp only [List.nil_append, List.head?_cons, Option.some.injEq] at hhead
        subst hhead
        refine ⟨startEntry board q, Relation.ReflTransGen.refl, rfl, ?_, rfl⟩
        simp [startEntry]
      · have hinitlen : 1 ≤ init.length := by
          cases init
          · simp at hinitne
          · simp
        have hfulllen : (init ++ [q]).length = init.length + 1 := by
          rw [List.length_append]
          rfl
        have hchsplit := (List.chain'_append).mp hch
        obtain ⟨e, her, hew, hev, hep⟩ := ih
          (by rwa [List.head?_append_of_ne_nil _ hinitne] at hhead)
          ((List.nodup_append.mp hnd).1)
          hchsplit.1
          (fun x hx => hbd x (List.mem_append_left _ hx))
          (fun k hk1 hk2 => by
            have h3 := hpref k hk1 (by omega)
            rwa [List.take_append_of_le_length hk2] at h3)
        have hqnotin : q ∉ init := by
          intro hmem
          exact (List.nodup_append.mp hnd).2.2 hmem (by simp)
        have hlastadj : is_adjacent e.pos q := hchsplit.2.2 e.pos hep q rfl
        have hstep : EStep board rows cols prefix_set e
            ⟨q, e.word ++ [letterAt board q], insert q e.visited⟩ := by
          constructor
          · have h3 := hpref init.length hinitlen (by omega)
            rw [List.take_append_of_le_length (le_refl _), List.take_length,
              ← hew] at h3
            exact h3
          · rw [mem_childEntries]
            refine ⟨q, ?_, ?_, ?_, ?_, rfl⟩
            · rw [mem_neighborCandidates]
              exact ⟨hlastadj.1, hlastadj.2.1⟩
            · exact hbd q (by simp)
            · rw [hev]
              intro hmem
              exact hqnotin (List.mem_toFinset.mp hmem)
            · have h3 := hpref (init.length + 1) (by omega) (by omega)
              rw [← hfulllen, List.take_length, List.map_append, ← hew] at h3
              simpa using h3
        refine ⟨⟨q, e.word ++ [letterAt board q], insert q e.visited⟩,
          Relation.ReflTransGen.tail her hstep, ?_, ?_, ?_⟩
        · rw [List.map_append, hew]
          rfl
        · rw [List.toFinset_append]
          simp only [List.toFinset_cons, List.toFinset_nil, insert_emptyc_eq]
          rw [Finset.union_comm, ← Finset.insert_eq, hev]
        · simp

theorem mem_startCells (rows cols : ℕ) (p : Pos) :
    p ∈ startCells rows cols ↔ inBoundsPos rows cols p := by
  constructor
  · intro h
    rw [startCells, List.mem_flatMap] at h
    obtain ⟨r, hr, h2⟩ := h
    rw [List.mem_map] at h2
    obtain ⟨c, hc, heq⟩ := h2
    rw [List.mem_range] at hr hc
    subst heq
    unfold inBoundsPos
    refine ⟨?_, ?_, ?_, ?_⟩ <;> dsimp only <;>
      simp only [Int.ofNat_eq_coe] <;> omega
  · rintro ⟨h1, h2, h3, h4⟩
    rw [startCells, List.mem_flatMap]
    refine ⟨p.1.toNat, ?_, ?_⟩
    · rw [List.mem_range]
      omega
    · rw [List.mem_map]
      refine ⟨p.2.toNat, ?_, ?_⟩
      · rw [List.mem_range]
        omega
      · simp only [Int.ofNat_eq_coe]
        have e1 : ((p.1.toNat : ℤ)) = p.1 := Int.toNat_of_nonneg h1
        have e2 : ((p.2.toNat : ℤ)) = p.2 := Int.toNat_of_nonneg h3
        rw [e1, e2]

theorem mem_foldl_bfsLoop (board : Board) (rows cols : ℕ)
    (dict prefix_set : List Word) (starts : List Pos) (init : List Word)
    (w : Word) :
    w ∈ starts.foldl
        (fun found p =>
          bfsLoop board rows cols dict prefix_set [startEntry board p] found)
        init
      ↔ w ∈ init ∨ ∃ p ∈ starts, ∃ e2,
          Reaches board rows cols prefix_set (startEntry board p) e2 ∧
          GoodEntry dict e2 ∧ e2.word = w := by
  induction starts generalizing init with
  | nil => simp
  | cons p rest ih =>
      rw [List.foldl_cons, ih, mem_bfsLoop]
      simp only [List.mem_cons, List.not_mem_nil, or_false]
      constructor
      · rintro ((hf | ⟨e, rfl, h⟩) | ⟨p1, h1, h2⟩)
        · exact Or.inl hf
        · exact Or.inr ⟨p, Or.inl rfl, h⟩
        · exact Or.inr ⟨p1, Or.inr h1, h2⟩
      · rintro (hf | ⟨p1, (rfl | h1), h2⟩)
        · exact Or.inl (Or.inl hf)
        · exact Or.inl (Or.inr ⟨startEntry board p1, rfl, h2⟩)
        · exact Or.inr ⟨p1, h1, h2⟩

/-- The semantic description of find_all_words, assuming the prefix set is
the one built from the dictionary (as in the source): the result holds
exactly the dictionary words of length at least 3 spelled by a simple path. -/
theorem find_all_words_spec (board : Board) (dict prefix_set : List Word)
    (hps : prefix_set = build_prefix_set dict) (w : Word) :
    w ∈ find_all_words board dict prefix_set ↔
      w ∈ dict ∧ 3 ≤ w.length ∧ SpelledOnBoard board w := by
  subst hps
  unfold find_all_words
  rw [mem_sortWords, mem_foldl_bfsLoop]
  simp only [List.not_mem_nil, false_or]
  constructor
  · rintro ⟨p, hp, e2, hr, hg, rfl⟩
    have hbd : inBoundsPos board.length (colsOf board) p :=
      (mem_startCells _ _ _).mp hp
    obtain ⟨path, hne, hnd, hch, hbdp, hmap, hlast, hfin⟩ :=
      reaches_to_path board _ _ _ p hbd e2 hr
    exact ⟨hg.2, hg.1, path, ⟨hnd, hch, hbdp⟩, hmap⟩
  · rintro ⟨hdict, hlen, path, ⟨hnd, hch, hbdp⟩, hmap⟩
    rcases path with _ | ⟨p0, rest⟩
    · rw [← hmap] at hlen
      simp at hlen
    · have hpref : ∀ k, 1 ≤ k → k ≤ (p0 :: rest).length →
          ((p0 :: rest).take k).map (letterAt board) ∈ build_prefix_set dict := by
        intro k hk1 hk2
        rw [mem_build_prefix_set]
        refine ⟨w, hdict, k, hk1, ?_, ?_⟩
        · rw [← hmap, List.length_map]
          exact hk2
        · rw [← hmap, ← List.map_take]
      obtain ⟨e, her, hew, _, _⟩ :=
        path_to_reaches board board.length (colsOf board)
          (build_prefix_set dict) (p0 :: rest) p0 rfl hnd hch hbdp hpref
      refine ⟨p0, ?_, e, her, ⟨?_, ?_⟩, ?_⟩
      · rw [mem_startCells]
        exact hbdp p0 (by simp)
      · rw [hew, hmap]
        exact hlen
      · rw [hew, hmap]
        exact hdict
      · rw [hew, hmap]

/-- The loop finishes within queueMeasure-many iterations: with that much
fuel the fueled loop returns the while-loop result instead of running out. -/
theorem bfsLoopFuel_sufficient (board : Board) (rows cols : ℕ)
    (dict prefix_set : List Word) :
    ∀ (fuel : ℕ) (queue : List Entry) (found : List Word),
      queueMeasure rows cols queue ≤ fuel →
      bfsLoopFuel board rows cols dict prefix_set fuel queue found
        = some (bfsLoop board rows cols dict prefix_set queue found) := by
  intro fuel
  induction fuel with
  | zero =>
      intro queue found h
      cases queue with
      | nil =>
          rw [bfsLoop_nil]
          rfl
      | cons e rest =>
          exfalso
          have h1 := queueMeasure_cons rows cols e rest
          have hpos : 0 < entryMeasure rows cols e := by
            unfold entryMeasure
            positivity
          omega
  | succ f ih =>
      intro queue found h
      cases queue with
      | nil =>
          rw [bfsLoop_nil]
          rfl
      | cons e rest =>
          rw [bfsLoop_cons]
          have hlt : queueMeasure rows cols
              (rest ++ stepKids board rows cols prefix_set e)
              < queueMeasure rows cols (e :: rest) := by
            have h1 := queueMeasure_stepKids_lt board rows cols prefix_set e
            have h2 := queueMeasure_append rows cols rest
              (stepKids board rows cols prefix_set e)
            have h3 := queueMeasure_cons rows cols e rest
            omega
          exact ih _ _ (by omega)

/-!  The session state machine of main: the per-round mutable variables and
the event handlers of the pygame loop, modelled as explicit transitions. -/

/-- The valid/invalid/none result message shown to the player; the source
formats these into display strings, which carries no extra state. -/
inductive ResultMsg where
  | empty
  | validWord (w : Word)
  | notValid (w : Word)
  | noWord
deriving DecidableEq

/-- The per-round mutable state of main: board, selection, found words,
score, and the give-up reveal bookkeeping. -/
structure GameState where
  board : Board
  current_word : Word
  result_message : ResultMsg
  selected_positions : List Pos
  words_found_count : ℕ
  words_found_list : List Word
  score : ℕ
  give_up : Bool
  all_possible_words : List Word
  word_display_index : ℕ
  last_word_switch_time : ℕ
  display_interval : ℕ
  time_give_up_completed : Option ℕ
  completed_adding_all : Bool
deriving DecidableEq

/-- reset_game_state from the source: a fresh round.  The random board and
the loaded letter images are external inputs; the board drawn is passed in. -/
def reset_game_state (fresh : Board) : GameState :=
  { board := fresh
    current_word := []
    result_message := .empty
    selected_positions := []
    words_found_count := 0
    words_found_list := []
    score := 0
    give_up := false
    all_possible_words := []
    word_display_index := 0
    last_word_switch_time := 0
    display_interval := 1000
    time_give_up_completed := none
    completed_adding_all := false }

/-- The tile-click handler: ignored after give up; ignored when the tile is
already selected, or when a selection exists and the tile is not adjacent
to the last selected tile; otherwise the letter joins the current word and
the position joins the selection. -/
def selectTile (s : GameState) (p : Pos) : GameState :=
  if s.give_up then s
  else if p ∈ s.selected_positions then s
  else if s.selected_positions = [] ∨
      is_adjacent (s.selected_positions.getLastD (0, 0)) p then
    { s with current_word := s.current_word ++ [letterAt s.board p]
             selected_positions := s.selected_positions ++ [p]
             result_message := .empty }
  else s

/-- The Check Word button handler (ignored after give up): an empty word
reports no-word; a dictionary word is appended to the found list, counted,
and scored; otherwise a not-valid result; the current word and selection
are always cleared. -/
def checkWord (dict : List Word) (s : GameState) : GameState :=
  if s.give_up then s
  else
    let s1 :=
      if s.current_word ≠ [] then
        (if s.current_word.map Char.toUpper ∈ dict then
          { s with result_message := .validWord s.current_word
                   words_found_count := s.words_found_count + 1
                   words_found_list :=
                     s.words_found_list ++ [s.current_word.map Char.toUpper]
                   score := s.score +
                     compute_points (s.current_word.map Char.toUpper) }
        else { s with result_message := .notValid s.current_word })
      else { s with result_message := .noWord }
    { s1 with current_word := [], selected_positions := [] }

/-- The Give Up button handler (only when not already given up): run the
search once and reset the reveal cursor and timing flags. -/
def giveUpClick (dict prefix_set : List Word) (now : ℕ) (s : GameState) :
    GameState :=
  if s.give_up then s
  else
    { s with give_up := true
             all_possible_words := find_all_words s.board dict prefix_set
             word_display_index := 0
             last_word_switch_time := now
             time_give_up_completed := none
             completed_adding_all := false }

/-- One execution of the per-frame give-up reveal block of main.  now is
the frame timestamp and fresh the board a reset would draw.  When the
reveal is complete but no completion time was recorded the state is
unreachable in real runs (the source would fault on None arithmetic); the
model leaves the state unchanged there. -/
def tickGiveUp (now : ℕ) (fresh : Board) (s : GameState) : GameState :=
  if s.give_up ∧ s.all_possible_words ≠ [] then
    if s.word_display_index < s.all_possible_words.length then
      (if now - s.last_word_switch_time > s.display_interval then
        let displayed_word := s.all_possible_words.getD s.word_display_index []
        let s1 :=
          if displayed_word ∉ s.words_found_list then
            { s with
                words_found_list :=
                  sortWords (s.words_found_list ++ [displayed_word])
                words_found_count := s.words_found_count + 1
                score := s.score + compute_points displayed_word }
          else s
        { s1 with word_display_index := s1.word_display_index + 1
                  last_word_switch_time := now }
      else s)
    else
      let s1 :=
        if ¬s.completed_adding_all then
          { s with completed_adding_all := true
                   time_give_up_completed := some now }
        else s
      match s1.time_give_up_completed with
      | none => s1
      | some t => if now - t > 5000 then reset_game_state fresh else s1
  else s

/-- The player-visible events of one frame of the main loop. -/
inductive GEvent where
  | selectEv (p : Pos)
  | submitEv
  | giveUpEv (now : ℕ)
  | tickEv (now : ℕ) (fresh : Board)

/-- One event-dispatch step of the main loop. -/
def stepEvent (dict prefix_set : List Word) : GEvent → GameState → GameState
  | .selectEv p, s => selectTile s p
  | .submitEv, s => checkWord dict s
  | .giveUpEv now, s => giveUpClick dict prefix_set now s
  | .tickEv now fresh, s => tickGiveUp now fresh s

/-- State after n frames of give-up ticks, with timestamp schedule t and
fresh-board schedule bs. -/
def runTicks (t : ℕ → ℕ) (bs : ℕ → Board) (s : GameState) : ℕ → GameState
  | 0 => s
  | n + 1 => tickGiveUp (t n) (bs n) (runTicks t bs s n)

theorem runTicks_succ (t : ℕ → ℕ) (bs : ℕ → Board) (s : GameState) (n : ℕ) :
    runTicks t bs s (n + 1) = tickGiveUp (t n) (bs n) (runTicks t bs s n) := rfl

/-- With an empty discovered-word list the whole give-up block is skipped. -/
theorem tick_noop_empty (now : ℕ) (fresh : Board) (s : GameState)
    (hempty : s.all_possible_words = []) :
    tickGiveUp now fresh s = s := by
  unfold tickGiveUp
  rw [if_neg]
  rintro ⟨h1, h2⟩
  exact h2 hempty

/-- A tick at or before the reveal interval changes nothing while words
remain to reveal. -/
theorem tick_noop_waiting (now : ℕ) (fresh : Board) (s : GameState)
    (hg : s.give_up = true) (hne : s.all_possible_words ≠ [])
    (hidx : s.word_display_index < s.all_possible_words.length)
    (htime : ¬ now - s.last_word_switch_time > s.display_interval) :
    tickGiveUp now fresh s = s := by
  unfold tickGiveUp
  rw [if_pos ⟨hg, hne⟩, if_pos hidx, if_neg htime]

/-- A tick strictly past the reveal interval advances the cursor and
stamps the advance time, while the other reveal bookkeeping is kept. -/
theorem tick_advance_fields (now : ℕ) (fresh : Board) (s : GameState)
    (hg : s.give_up = true) (hne : s.all_possible_words ≠ [])
    (hidx : s.word_display_index < s.all_possible_words.length)
    (htime : now - s.last_word_switch_time > s.display_interval) :
    (tickGiveUp now fresh s).give_up = s.give_up ∧
    (tickGiveUp now fresh s).all_possible_words = s.all_possible_words ∧
    (tickGiveUp now fresh s).display_interval = s.display_interval ∧
    (tickGiveUp now fresh s).completed_adding_all = s.completed_adding_all ∧
    (tickGiveUp now fresh s).time_give_up_completed
      = s.time_give_up_completed ∧
    (tickGiveUp now fresh s).word_display_index = s.word_display_index + 1 ∧
    (tickGiveUp now fresh s).last_word_switch_time = now := by
  unfold tickGiveUp
  rw [if_pos ⟨hg, hne⟩, if_pos hidx, if_pos htime]
  simp only []
  refine ⟨?_, ?_, ?_, ?_, ?_, ?_, ?_⟩ <;> simp [apply_ite]

/-- The first tick after the cursor reaches the end records completion and
the completion time (the 5000 ms test then fails at that same frame). -/
theorem tick_complete (now : ℕ) (fresh : Board) (s : GameState)
    (hg : s.give_up = true) (hne : s.all_possible_words ≠ [])
    (hidx : ¬ s.word_display_index < s.all_possible_words.length)
    (hcomp : s.completed_adding_all = false) :
    tickGiveUp now fresh s
      = { s with completed_adding_all := true,
                 time_give_up_completed := some now } := by
  unfold tickGiveUp
  rw [if_pos ⟨hg, hne⟩, if_neg hidx]
  have h1 : ¬ s.completed_adding_all = true := by
    rw [hcomp]
    simp
  rw [if_pos h1]
  simp only
  rw [if_neg (by omega)]

/-- Ticks inside the 5000 ms grace period change nothing. -/
theorem tick_wait (now : ℕ) (fresh : Board) (s : GameState)
    (hg : s.give_up = true) (hne : s.all_possible_words ≠ [])
    (hidx : ¬ s.word_display_index < s.all_possible_words.length)
    (hcomp : s.completed_adding_all = true) (T : ℕ)
    (htc : s.time_give_up_completed = some T) (ht : ¬ now - T > 5000) :
    tickGiveUp now fresh s = s := by
  unfold tickGiveUp
  rw [if_pos ⟨hg, hne⟩, if_neg hidx]
  have h1 : ¬ ¬ s.completed_adding_all = true := by simp [hcomp]
  rw [if_neg h1]
  simp only [htc]
  rw [if_neg ht]

/-- A tick strictly past the grace period performs the full reset. -/
theorem tick_reset (now : ℕ) (fresh : Board) (s : GameState)
    (hg : s.give_up = true) (hne : s.all_possible_words ≠ [])
    (hidx : ¬ s.word_display_index < s.all_possible_words.length)
    (hcomp : s.completed_adding_all = true) (T : ℕ)
    (htc : s.time_give_up_completed = some T) (ht : now - T > 5000) :
    tickGiveUp now fresh s = reset_game_state fresh := by
  unfold tickGiveUp
  rw [if_pos ⟨hg, hne⟩, if_neg hidx]
  have h1 : ¬ ¬ s.completed_adding_all = true := by simp [hcomp]
  rw [if_neg h1]
  simp only [htc]
  rw [if_pos ht]

/-- With an empty dictionary the search finds nothing, whatever the board
and prefix set. -/
theorem find_all_words_nil_dict (board : Board) (prefix_set : List Word) :
    find_all_words board [] prefix_set = [] := by
  rw [List.eq_nil_iff_forall_not_mem]
  intro w hw
  unfold find_all_words at hw
  rw [mem_sortWords, mem_foldl_bfsLoop] at hw
  rcases hw with h | ⟨p, hp, e2, hr, hg, hw⟩
  · exact (List.not_mem_nil w) h
  · exact (List.not_mem_nil e2.word) hg.2

/-- For a strictly increasing timestamp schedule, from any step there is a
first later step whose time exceeds any given threshold. -/
theorem exists_threshold (t : ℕ → ℕ) (ht : StrictMono t) (m T : ℕ) :
    ∃ k : ℕ, t (m + k) > T ∧ ∀ j, j < k → ¬ t (m + j) > T := by
  have hex : ∃ k, t (m + k) > T := by
    refine ⟨T + 1, ?_⟩
    have h1 : m + (T + 1) ≤ t (m + (T + 1)) := ht.le_apply
    omega
  refine ⟨Nat.find hex, Nat.find_spec hex, ?_⟩
  intro j hj
  exact Nat.find_min hex hj

/-- A run stays at a state through ticks that do not change it. -/
theorem runTicks_add_stable (t : ℕ → ℕ) (bs : ℕ → Board) (s0 sW : GameState)
    (m : ℕ) (hm : runTicks t bs s0 m = sW) :
    ∀ k, (∀ j, j < k → tickGiveUp (t (m + j)) (bs (m + j)) sW = sW) →
      runTicks t bs s0 (m + k) = sW := by
  intro k
  induction k with
  | zero => intro _; simpa using hm
  | succ k ih =>
      intro hno
      have h1 : runTicks t bs s0 (m + k) = sW :=
        ih (fun j hj => hno j (by omega))
      have h2 : runTicks t bs s0 (m + (k + 1))
          = tickGiveUp (t (m + k)) (bs (m + k)) (runTicks t bs s0 (m + k)) := by
        rw [show m + (k + 1) = (m + k) + 1 by omega, runTicks_succ]
      rw [h2, h1, hno k (by omega)]

/-- Phase one of the reveal: starting below the end of the list, some later
step reaches a state whose cursor is at or past the end, with the list, the
give-up flag, and the completion flag unchanged. -/
theorem reveal_phaseA (t : ℕ → ℕ) (ht : StrictMono t) (bs : ℕ → Board)
    (s0 : GameState) :
    ∀ (d m : ℕ) (sW : GameState),
      runTicks t bs s0 m = sW →
      sW.give_up = true → sW.all_possible_words ≠ [] →
      sW.completed_adding_all = false →
      sW.all_possible_words.length - sW.word_display_index ≤ d →
      ∃ (m2 : ℕ) (s2 : GameState), m ≤ m2 ∧ runTicks t bs s0 m2 = s2 ∧
        s2.give_up = true ∧ s2.all_possible_words = sW.all_possible_words ∧
        s2.completed_adding_all = false ∧
        ¬ s2.word_display_index < s2.all_possible_words.length := by
  intro d
  induction d with
  | zero =>
      intro m sW hm hg hne hc hd
      exact ⟨m, sW, le_refl m, hm, hg, rfl, hc, by omega⟩
  | succ d ih =>
      intro m sW hm hg hne hc hd
      by_cases hidx : sW.word_display_index < sW.all_possible_words.length
      · obtain ⟨k, hk1, hk2⟩ := exists_threshold t ht m
          (sW.display_interval + sW.last_word_switch_time)
        have hstall : runTicks t bs s0 (m + k) = sW :=
          runTicks_add_stable t bs s0 sW m hm k (fun j hj =>
            tick_noop_waiting _ _ _ hg hne hidx
              (by have := hk2 j hj; omega))
        have hadv := tick_advance_fields (t (m + k)) (bs (m + k)) sW hg hne
          hidx (by omega)
        obtain ⟨ha1, ha2, ha3, ha4, ha5, ha6, ha7⟩ := hadv
        have hrun2 : runTicks t bs s0 (m + k + 1)
            = tickGiveUp (t (m + k)) (bs (m + k)) sW := by
          rw [runTicks_succ, hstall]
        obtain ⟨m2, s2, hle, h2run, h2g, h2all, h2c, h2idx⟩ :=
          ih (m + k + 1) (tickGiveUp (t (m + k)) (bs (m + k)) sW) hrun2
            (by rw [ha1, hg]) (by rw [ha2]; exact hne) (by rw [ha4, hc])
            (by rw [ha2, ha6]; omega)
        refine ⟨m2, s2, by omega, h2run, h2g, ?_, h2c, h2idx⟩
        rw [h2all, ha2]
      · exact ⟨m, sW, le_refl m, hm, hg, rfl, hc, hidx⟩

/-- After a reveal request with a nonempty word list, repeated ticks at
strictly increasing times eventually trigger the full reset. -/
theorem reveal_terminates_aux (t : ℕ → ℕ) (ht : StrictMono t)
    (bs : ℕ → Board) (s : GameState) (hg : s.give_up = true)
    (hne : s.all_possible_words ≠ []) (hc : s.completed_adding_all = false) :
    ∃ n : ℕ, runTicks t bs s (n + 1) = reset_game_state (bs n) := by
  obtain ⟨m2, s2, hle, h2run, h2g, h2all, h2c, h2idx⟩ :=
    reveal_phaseA t ht bs s s.all_possible_words.length 0 s rfl hg hne hc
      (by omega)
  have h2ne : s2.all_possible_words ≠ [] := by
    rw [h2all]
    exact hne
  -- the next tick marks completion and records the completion time
  have hcomp : runTicks t bs s (m2 + 1)
      = { s2 with completed_adding_all := true,
                  time_give_up_completed := some (t m2) } := by
    rw [runTicks_succ, h2run, tick_complete _ _ _ h2g h2ne h2idx h2c]
  set s3 : GameState :=
    { s2 with completed_adding_all := true,
              time_give_up_completed := some (t m2) } with hs3
  have h3g : s3.give_up = true := h2g
  have h3ne : s3.all_possible_words ≠ [] := h2ne
  have h3idx : ¬ s3.word_display_index < s3.all_possible_words.length := h2idx
  -- wait out the grace period
  obtain ⟨k, hk1, hk2⟩ := exists_threshold t ht (m2 + 1) (5000 + t m2)
  have hstall : runTicks t bs s (m2 + 1 + k) = s3 :=
    runTicks_add_stable t bs s s3 (m2 + 1) hcomp k (fun j hj =>
      tick_wait _ _ _ h3g h3ne h3idx rfl (t m2) rfl
        (by have := hk2 j hj; omega))
  refine ⟨m2 + 1 + k, ?_⟩
  rw [runTicks_succ, hstall,
    tick_reset _ _ _ h3g h3ne h3idx rfl (t m2) rfl (by omega)]

/-- A tick is a no-op when the player has not given up. -/
theorem tick_noop_not_revealing (now : ℕ) (fresh : Board) (s : GameState)
    (h : ¬ s.give_up = true) :
    tickGiveUp now fresh s = s := by
  unfold tickGiveUp
  rw [if_neg]
  rintro ⟨h1, _⟩
  exact h h1

/-- The modelled no-op on the state the source cannot reach (reveal marked
complete but no completion time recorded). -/
theorem tick_stuck_none (now : ℕ) (fresh : Board) (s : GameState)
    (hg : s.give_up = true) (hne : s.all_possible_words ≠ [])
    (hidx : ¬ s.word_display_index < s.all_possible_words.length)
    (hcomp : s.completed_adding_all = true)
    (htc : s.time_give_up_completed = none) :
    tickGiveUp now fresh s = s := by
  unfold tickGiveUp
  rw [if_pos ⟨hg, hne⟩, if_neg hidx]
  have h1 : ¬ ¬ s.completed_adding_all = true := by simp [hcomp]
  rw [if_neg h1]
  simp only [htc]

/-- A crediting tick: past the interval, cursor word not yet found — the
word is appended, counted, scored, the list re-sorted, and the cursor and
stamp advanced. -/
theorem tick_advance_credit (now : ℕ) (fresh : Board) (s : GameState)
    (hg : s.give_up = true) (hne : s.all_possible_words ≠ [])
    (hidx : s.word_display_index < s.all_possible_words.length)
    (htime : now - s.last_word_switch_time > s.display_interval)
    (hw : s.all_possible_words.getD s.word_display_index []
      ∉ s.words_found_list) :
    tickGiveUp now fresh s =
      { s with
          words_found_list := sortWords (s.words_found_list
            ++ [s.all_possible_words.getD s.word_display_index []])
          words_found_count := s.words_found_count + 1
          score := s.score + compute_points
            (s.all_possible_words.getD s.word_display_index [])
          word_display_index := s.word_display_index + 1
          last_word_switch_time := now } := by
  unfold tickGiveUp
  rw [if_pos ⟨hg, hne⟩, if_pos hidx, if_pos htime]
  dsimp only
  rw [if_pos hw]

/-- A non-crediting advance: past the interval but the cursor word is
already found — only the cursor and the stamp change. -/
theorem tick_advance_nocredit (now : ℕ) (fresh : Board) (s : GameState)
    (hg : s.give_up = true) (hne : s.all_possible_words ≠ [])
    (hidx : s.word_display_index < s.all_possible_words.length)
    (htime : now - s.last_word_switch_time > s.display_interval)
    (hw : s.all_possible_words.getD s.word_display_index []
      ∈ s.words_found_list) :
    tickGiveUp now fresh s =
      { s with word_display_index := s.word_display_index + 1
               last_word_switch_time := now } := by
  unfold tickGiveUp
  rw [if_pos ⟨hg, hne⟩, if_pos hidx, if_pos htime]
  dsimp only
  rw [if_neg (not_not_intro hw)]

/-- Check Word is ignored after giving up. -/
theorem checkWord_giveup (dict : List Word) (s : GameState)
    (h : s.give_up = true) :
    checkWord dict s = s := by
  unfold checkWord
  rw [if_pos h]

/-- Check Word with an empty current word only reports no-word and clears
the selection. -/
theorem checkWord_empty_word (dict : List Word) (s : GameState)
    (hgu : s.give_up = false) (hcw : s.current_word = []) :
    checkWord dict s =
      { s with result_message := .noWord,
               current_word := [], selected_positions := [] } := by
  unfold checkWord
  rw [if_neg (by rw [hgu]; simp)]
  dsimp only
  rw [if_neg (by rw [hcw]; simp)]

/-- Check Word on a dictionary word always credits it: appended to the
found list, counted, scored — with no membership guard. -/
theorem checkWord_valid (dict : List Word) (s : GameState)
    (hgu : s.give_up = false) (hcw : s.current_word ≠ [])
    (hmem : s.current_word.map Char.toUpper ∈ dict) :
    checkWord dict s =
      { s with result_message := .validWord s.current_word
               words_found_count := s.words_found_count + 1
               words_found_list := s.words_found_list
                 ++ [s.current_word.map Char.toUpper]
               score := s.score
                 + compute_points (s.current_word.map Char.toUpper)
               current_word := []
               selected_positions := [] } := by
  unfold checkWord
  rw [if_neg (by rw [hgu]; simp)]
  dsimp only
  rw [if_pos hcw, if_pos hmem]

/-- Check Word on a word absent from the dictionary reports not-valid and
credits nothing. -/
theorem checkWord_not_valid (dict : List Word) (s : GameState)
    (hgu : s.give_up = false) (hcw : s.current_word ≠ [])
    (hmem : s.current_word.map Char.toUpper ∉ dict) :
    checkWord dict s =
      { s with result_message := .notValid s.current_word
               current_word := []
               selected_positions := [] } := by
  unfold checkWord
  rw [if_neg (by rw [hgu]; simp)]
  dsimp only
  rw [if_pos hcw, if_neg hmem]

theorem getLast?_eq_some_getLastD {α : Type} (l : List α) (d : α)
    (h : l ≠ []) : l.getLast? = some (l.getLastD d) := by
  rw [List.getLastD_eq_getLast?]
  obtain ⟨a, ha⟩ : ∃ a, l.getLast? = some a := by
    cases hl : l.getLast? with
    | none => exact absurd (List.getLast?_eq_none_iff.mp hl) h
    | some a => exact ⟨a, rfl⟩
  rw [ha]
  rfl

/-- The selection invariant: the selected positions form a simple path
(no repeats, consecutive 8-adjacency) whose length matches the current
word. -/
def SelInv (s : GameState) : Prop :=
  s.selected_positions.Nodup ∧ s.selected_positions.Chain' is_adjacent ∧
    s.selected_positions.length = s.current_word.length

theorem selInv_selectTile (s : GameState) (p : Pos) (h : SelInv s) :
    SelInv (selectTile s p) := by
  obtain ⟨hnd, hch, hlen⟩ := h
  unfold selectTile
  split_ifs with h1 h2 h3
  · exact ⟨hnd, hch, hlen⟩
  · exact ⟨hnd, hch, hlen⟩
  · refine ⟨?_, ?_, ?_⟩
    · dsimp only
      rw [List.nodup_append]
      refine ⟨hnd, by simp, ?_⟩
      intro x hx hx2
      rw [List.mem_singleton] at hx2
      subst hx2
      exact h2 hx
    · dsimp only
      rw [List.chain'_append]
      refine ⟨hch, by simp, ?_⟩
      intro x hx y hy
      simp only [List.head?_cons, Option.mem_def, Option.some.injEq] at hy
      subst hy
      have hne : s.selected_positions ≠ [] := by
        intro hn
        rw [hn] at hx
        simp at hx
      rcases h3 with hnil | hadj
      · exact absurd hnil hne
      · rw [getLast?_eq_some_getLastD _ (0, 0) hne, Option.mem_def,
          Option.some.injEq] at hx
        subst hx
        exact hadj
    · dsimp only
      rw [List.length_append, List.length_append, hlen]
      rfl
  · exact ⟨hnd, hch, hlen⟩

theorem selInv_reset (b : Board) : SelInv (reset_game_state b) :=
  ⟨List.nodup_nil, List.chain'_nil, rfl⟩

theorem selInv_foldl (b : Board) (qs : List Pos) :
    SelInv (qs.foldl selectTile (reset_game_state b)) := by
  have hgen : ∀ (s : GameState), SelInv s → SelInv (qs.foldl selectTile s) := by
    induction qs with
    | nil => intro s h; exact h
    | cons q rest ih =>
        intro s h
        rw [List.foldl_cons]
        exact ih _ (selInv_selectTile s q h)
  exact hgen _ (selInv_reset b)

/-!  Concrete demonstration inputs used by witnesses and counterexamples. -/

/-- A small concrete board: row 0 is A T, row 1 is C X. -/
def demoBoard : Board := [['A', 'T'], ['C', 'X']]

/-- A dictionary holding the single word CAT. -/
def demoDict : List Word := [['C', 'A', 'T']]

/-- A state in which CAT is the current word and is already in found-words. -/
def stateResubmit : GameState :=
  { reset_game_state demoBoard with
      current_word := ['C', 'A', 'T']
      selected_positions := [(1, 0), (0, 0), (0, 1)]
      words_found_count := 1
      words_found_list := [['C', 'A', 'T']]
      score := 1 }

/-- A revealing state: one word to reveal, cursor 0, last advance at 0 ms,
interval 1000 ms. -/
def stateReveal : GameState :=
  { reset_game_state demoBoard with
      give_up := true
      all_possible_words := [['C', 'A', 'T']] }

/-- Like stateReveal, but CAT was already submitted and credited. -/
def stateRevealFound : GameState :=
  { stateReveal with
      words_found_count := 1
      words_found_list := [['C', 'A', 'T']]
      score := 1 }

/-- A reveal requested with the empty dictionary: the discovered-word list
is empty. -/
def stateEmptyReveal : GameState :=
  giveUpClick [] (build_prefix_set []) 0 (reset_game_state demoBoard)

/-- A selecting state whose current word is the single letter Q. -/
def stateSubmitQ : GameState :=
  { reset_game_state demoBoard with current_word := ['Q'] }

/-- C2 counterexample: in a state where the current word CAT is already in
found-words, pressing Check Word appends a second copy of CAT and
increments the score again — the claim that resubmission inserts no second
copy and does not increment the score is false on the code. -/
theorem C2_counterexample_resubmit_double_scores :
    stateResubmit.words_found_list = [['C', 'A', 'T']] ∧
    stateResubmit.score = 1 ∧
    stateResubmit.current_word.map Char.toUpper = ['C', 'A', 'T'] ∧
    (checkWord demoDict stateResubmit).words_found_list
      = [['C', 'A', 'T'], ['C', 'A', 'T']] ∧
    (checkWord demoDict stateResubmit).score = 2 ∧
    (checkWord demoDict stateResubmit).words_found_count = 2 := by
  refine ⟨rfl, rfl, by decide, ?_, ?_, ?_⟩ <;> decide

/-- C2 amended: submitting a word present in the dictionary always appends
its uppercased form to found-words, increments the count, and adds its
points to the score, even when the word is already in found-words — the
source has no resubmission guard, so resubmitting double-scores. -/
theorem C2_amended_submit_always_credits (dict : List Word) (s : GameState)
    (hgu : s.give_up = false) (hcw : s.current_word ≠ [])
    (hmem : s.current_word.map Char.toUpper ∈ dict) :
    (checkWord dict s).words_found_list
      = s.words_found_list ++ [s.current_word.map Char.toUpper] ∧
    (checkWord dict s).words_found_count = s.words_found_count + 1 ∧
    (checkWord dict s).score
      = s.score + compute_points (s.current_word.map Char.toUpper) ∧
    (checkWord dict s).current_word = [] ∧
    (checkWord dict s).selected_positions = [] := by
  rw [checkWord_valid dict s hgu hcw hmem]
  exact ⟨rfl, rfl, rfl, rfl, rfl⟩

/-- Witness for the amended C2 at the concrete resubmission state. -/
theorem C2_amended_submit_always_credits_witness :
    (checkWord demoDict stateResubmit).words_found_list
      = stateResubmit.words_found_list
        ++ [stateResubmit.current_word.map Char.toUpper] ∧
    (checkWord demoDict stateResubmit).words_found_count
      = stateResubmit.words_found_count + 1 ∧
    (checkWord demoDict stateResubmit).score
      = stateResubmit.score
        + compute_points (stateResubmit.current_word.map Char.toUpper) ∧
    (checkWord demoDict stateResubmit).current_word = [] ∧
    (checkWord demoDict stateResubmit).selected_positions = [] :=
  C2_amended_submit_always_credits demoDict stateResubmit rfl (by decide)
    (by decide)

/-- C4 counterexample: in a revealing state with cursor 0, one word left,
interval 1000 ms and last advance 0 ms, a tick at exactly 1000 ms (so
now - last_advance = 1000, satisfying the claim premise of at least
1000 ms) changes nothing — the source requires strictly more than the
interval, so the claim that such a tick credits and advances is false. -/
theorem C4_counterexample_boundary_tick :
    stateReveal.give_up = true ∧
    stateReveal.all_possible_words.length = 1 ∧
    stateReveal.word_display_index = 0 ∧
    stateReveal.display_interval = 1000 ∧
    1000 - stateReveal.last_word_switch_time = 1000 ∧
    tickGiveUp 1000 demoBoard stateReveal = stateReveal := by
  refine ⟨rfl, rfl, rfl, rfl, rfl, ?_⟩
  decide

/-- C4 amended: in a revealing state with the cursor before the end, a
tick strictly later than the interval credits the cursor word exactly as
the source does (appending, counting, scoring, and re-sorting only when
the word was not yet found), advances the cursor, and stamps the advance
time; a tick at or before the interval changes nothing. -/
theorem C4_amended_tick_advance (s : GameState) (now : ℕ) (fresh : Board)
    (hg : s.give_up = true) (hne : s.all_possible_words ≠ [])
    (hidx : s.word_display_index < s.all_possible_words.length) :
    (now - s.last_word_switch_time > s.display_interval →
      (tickGiveUp now fresh s).word_display_index
          = s.word_display_index + 1 ∧
      (tickGiveUp now fresh s).last_word_switch_time = now ∧
      (s.all_possible_words.getD s.word_display_index []
          ∉ s.words_found_list →
        (tickGiveUp now fresh s).words_found_list
          = sortWords (s.words_found_list
              ++ [s.all_possible_words.getD s.word_display_index []]) ∧
        (tickGiveUp now fresh s).words_found_count
          = s.words_found_count + 1 ∧
        (tickGiveUp now fresh s).score = s.score + compute_points
          (s.all_possible_words.getD s.word_display_index [])) ∧
      (s.all_possible_words.getD s.word_display_index []
          ∈ s.words_found_list →
        (tickGiveUp now fresh s).words_found_list = s.words_found_list ∧
        (tickGiveUp now fresh s).words_found_count = s.words_found_count ∧
        (tickGiveUp now fresh s).score = s.score)) ∧
    (now - s.last_word_switch_time ≤ s.display_interval →
      tickGiveUp now fresh s = s) := by
  constructor
  · intro htime
    by_cases hw : s.all_possible_words.getD s.word_display_index []
        ∈ s.words_found_list
    · rw [tick_advance_nocredit now fresh s hg hne hidx htime hw]
      exact ⟨rfl, rfl, fun hnm => absurd hw hnm, fun _ => ⟨rfl, rfl, rfl⟩⟩
    · rw [tick_advance_credit now fresh s hg hne hidx htime hw]
      exact ⟨rfl, rfl, fun _ => ⟨rfl, rfl, rfl⟩, fun hm => absurd hm hw⟩
  · intro htime
    exact tick_noop_waiting now fresh s hg hne hidx (by omega)

/-- Witness for the amended C4: a tick at 500 ms (at most the interval)
leaves the concrete revealing state unchanged. -/
theorem C4_amended_tick_advance_witness :
    tickGiveUp 500 demoBoard stateReveal = stateReveal :=
  (C4_amended_tick_advance stateReveal 500 demoBoard rfl (by decide)
    (by decide)).2 (by decide)

/-- C5: a reveal tick whose cursor word is already in found-words leaves
the score, the found-words list, and the count unchanged, whether or not
the interval has elapsed. -/
theorem C5_reveal_credit_idempotent (s : GameState) (now : ℕ) (fresh : Board)
    (hg : s.give_up = true) (hne : s.all_possible_words ≠ [])
    (hidx : s.word_display_index < s.all_possible_words.length)
    (hmem : s.all_possible_words.getD s.word_display_index []
      ∈ s.words_found_list) :
    (tickGiveUp now fresh s).score = s.score ∧
    (tickGiveUp now fresh s).words_found_list = s.words_found_list ∧
    (tickGiveUp now fresh s).words_found_count = s.words_found_count := by
  by_cases htime : now - s.last_word_switch_time > s.display_interval
  · rw [tick_advance_nocredit now fresh s hg hne hidx htime hmem]
    exact ⟨rfl, rfl, rfl⟩
  · rw [tick_noop_waiting now fresh s hg hne hidx htime]
    exact ⟨rfl, rfl, rfl⟩

/-- Witness for C5: a crediting-time tick on the state where CAT was
already submitted leaves score, list, and count unchanged. -/
theorem C5_reveal_credit_idempotent_witness :
    (tickGiveUp 2000 demoBoard stateRevealFound).score
        = stateRevealFound.score ∧
    (tickGiveUp 2000 demoBoard stateRevealFound).words_found_list
        = stateRevealFound.words_found_list ∧
    (tickGiveUp 2000 demoBoard stateRevealFound).words_found_count
        = stateRevealFound.words_found_count :=
  C5_reveal_credit_idempotent stateRevealFound 2000 demoBoard rfl
    (by decide) (by decide) (by decide)

/-- C1: with the prefix set built from the dictionary (as in the source),
find_all_words returns exactly the dictionary words of length at least 3
that are spelled by some simple path of pairwise-distinct, consecutively
8-adjacent cells of the grid — no false positives and no omissions, so the
prefix pruning loses no word. -/
theorem C1_find_all_words_exact (board : Board) (dict prefix_set : List Word)
    (hps : prefix_set = build_prefix_set dict) (w : Word) :
    w ∈ find_all_words board dict prefix_set ↔
      w ∈ dict ∧ 3 ≤ w.length ∧ SpelledOnBoard board w :=
  find_all_words_spec board dict prefix_set hps w

/-- Witness for C1: CAT is discovered on the concrete board via the
explicit simple path C(1,0) A(0,0) T(0,1). -/
theorem C1_find_all_words_exact_witness :
    (['C', 'A', 'T'] : Word) ∈ find_all_words demoBoard demoDict
      (build_prefix_set demoDict) := by
  rw [C1_find_all_words_exact demoBoard demoDict _ rfl]
  refine ⟨by decide, by decide, [((1 : ℤ), (0 : ℤ)), (0, 0), (0, 1)],
    ⟨by decide, ?_, by decide⟩, by decide⟩
  simp only [List.chain'_cons, List.chain'_singleton, and_true]
  exact ⟨by decide, by decide⟩

/-- C3 counterexample: requesting a reveal with the empty dictionary
produces an empty revealed-word list, and then no sequence of ticks — here
with the strictly increasing schedule sending each step to its own index —
ever returns the session to selecting: the block guarded by a nonempty
list is skipped forever, so the claimed reset never happens in the
empty-list case. -/
theorem C3_counterexample_empty_reveal_stuck :
    stateEmptyReveal.give_up = true ∧
    stateEmptyReveal.all_possible_words = [] ∧
    ¬ ∃ n : ℕ, (runTicks (fun i => i) (fun _ => demoBoard)
        stateEmptyReveal n).give_up = false := by
  have hall : stateEmptyReveal.all_possible_words = [] := by
    show find_all_words demoBoard [] (build_prefix_set []) = []
    exact find_all_words_nil_dict demoBoard (build_prefix_set [])
  have hgu : stateEmptyReveal.give_up = true := rfl
  refine ⟨hgu, hall, ?_⟩
  have hstay : ∀ n, runTicks (fun i => i) (fun _ => demoBoard)
      stateEmptyReveal n = stateEmptyReveal := by
    intro n
    induction n with
    | zero => rfl
    | succ k ih => rw [runTicks_succ, ih, tick_noop_empty _ _ _ hall]
  rintro ⟨n, hn⟩
  rw [hstay n, hgu] at hn
  exact absurd hn (by decide)

/-- C3 amended: after a reveal request whose revealed-word list is
nonempty, repeated ticks with strictly increasing timestamps eventually
(once the cursor passes the end of the list and the 5000 ms grace period
has elapsed) perform the full reset: the session is back in selecting with
empty selection, empty found-words, score 0, and the freshly drawn grid.
(The source skips the whole block when the list is empty, so the empty
case never resets.) -/
theorem C3_amended_reveal_terminates (t : ℕ → ℕ) (ht : StrictMono t)
    (bs : ℕ → Board) (s : GameState) (hg : s.give_up = true)
    (hne : s.all_possible_words ≠ [])
    (hc : s.completed_adding_all = false) :
    ∃ n : ℕ, runTicks t bs s (n + 1) = reset_game_state (bs n) ∧
      (runTicks t bs s (n + 1)).give_up = false ∧
      (runTicks t bs s (n + 1)).selected_positions = [] ∧
      (runTicks t bs s (n + 1)).current_word = [] ∧
      (runTicks t bs s (n + 1)).words_found_list = [] ∧
      (runTicks t bs s (n + 1)).score = 0 ∧
      (runTicks t bs s (n + 1)).board = bs n := by
  obtain ⟨n, hn⟩ := reveal_terminates_aux t ht bs s hg hne hc
  refine ⟨n, hn, ?_, ?_, ?_, ?_, ?_, ?_⟩ <;> rw [hn] <;> rfl

/-- Witness for the amended C3 at the concrete revealing state with the
identity (strictly increasing) schedule. -/
theorem C3_amended_reveal_terminates_witness :
    ∃ n : ℕ, runTicks (fun i => i) (fun _ => demoBoard) stateReveal (n + 1)
        = reset_game_state demoBoard ∧
      (runTicks (fun i => i) (fun _ => demoBoard) stateReveal
        (n + 1)).give_up = false := by
  obtain ⟨n, h1, h2, _⟩ := C3_amended_reveal_terminates (fun i => i)
    strictMono_id (fun _ => demoBoard) stateReveal rfl (by decide) rfl
  exact ⟨n, h1, h2⟩

/-- C6: a select event is a silent no-op when the session is revealing,
when the position is already selected, or when the selection is nonempty
and the position is not adjacent to the last selected one; otherwise it
appends the position and the cell letter; consequently every state reached
from a fresh round by select events has a selection that is a simple path
whose length equals the current word length. -/
theorem C6_select_no_op_and_invariant (s : GameState) (p : Pos) (b : Board)
    (qs : List Pos) :
    (s.give_up = true → selectTile s p = s) ∧
    (p ∈ s.selected_positions → selectTile s p = s) ∧
    (s.selected_positions ≠ [] →
      ¬ is_adjacent (s.selected_positions.getLastD (0, 0)) p →
      selectTile s p = s) ∧
    (s.give_up = false → p ∉ s.selected_positions →
      (s.selected_positions = [] ∨
        is_adjacent (s.selected_positions.getLastD (0, 0)) p) →
      (selectTile s p).selected_positions = s.selected_positions ++ [p] ∧
      (selectTile s p).current_word
        = s.current_word ++ [letterAt s.board p]) ∧
    (SelInv s → SelInv (selectTile s p)) ∧
    SelInv (qs.foldl selectTile (reset_game_state b)) := by
  refine ⟨?_, ?_, ?_, ?_, selInv_selectTile s p, selInv_foldl b qs⟩
  · intro h
    unfold selectTile
    rw [if_pos h]
  · intro h
    unfold selectTile
    split_ifs <;> rfl
  · intro hne hnadj
    unfold selectTile
    split_ifs with h1 h2 h3 <;> try rfl
    rcases h3 with h3 | h3
    · exact absurd h3 hne
    · exact absurd h3 hnadj
  · intro hgu hnmem hok
    unfold selectTile
    rw [if_neg (by rw [hgu]; simp), if_neg hnmem, if_pos hok]
    exact ⟨rfl, rfl⟩

/-- Witness for C6: selecting during a reveal is a no-op, and a two-step
selection from a fresh round satisfies the invariant. -/
theorem C6_select_no_op_and_invariant_witness :
    selectTile stateReveal (0, 0) = stateReveal ∧
    SelInv ([((0 : ℤ), (0 : ℤ)), (0, 1)].foldl selectTile
      (reset_game_state demoBoard)) :=
  ⟨(C6_select_no_op_and_invariant stateReveal (0, 0) demoBoard []).1 rfl,
   (C6_select_no_op_and_invariant stateReveal (0, 0) demoBoard
      [((0 : ℤ), (0 : ℤ)), (0, 1)]).2.2.2.2.2⟩

/-- C7: the prefix set built from a dictionary contains exactly the
nonempty leading substrings of its words; in particular every prefix
w[0:k] with 1 at most k at most len(w) — the word itself included — is in
the prefix set. -/
theorem C7_prefix_set_exact (dictionary : List Word) :
    (∀ s : Word, s ∈ build_prefix_set dictionary ↔
      ∃ w ∈ dictionary, ∃ k, 1 ≤ k ∧ k ≤ w.length ∧ s = w.take k) ∧
    (∀ w ∈ dictionary, ∀ k, 1 ≤ k → k ≤ w.length →
      w.take k ∈ build_prefix_set dictionary) := by
  refine ⟨mem_build_prefix_set dictionary, ?_⟩
  intro w hw k h1 h2
  exact (mem_build_prefix_set dictionary (w.take k)).mpr ⟨w, hw, k, h1, h2, rfl⟩

/-- Witness for C7: the prefixes CA and CAT of the dictionary word CAT are
both in the prefix set. -/
theorem C7_prefix_set_exact_witness :
    (['C', 'A', 'T'] : Word).take 2 ∈ build_prefix_set demoDict ∧
    (['C', 'A', 'T'] : Word).take 3 ∈ build_prefix_set demoDict :=
  ⟨(C7_prefix_set_exact demoDict).2 ['C', 'A', 'T'] (by decide) 2 (by decide)
      (by decide),
   (C7_prefix_set_exact demoDict).2 ['C', 'A', 'T'] (by decide) 3 (by decide)
      (by decide)⟩

/-- The start entry of the search from cell (1,0) of the demo board. -/
def demoEntry : Entry := startEntry demoBoard (1, 0)

/-- The extension of demoEntry to cell (0,0), spelling CA. -/
def demoEntry2 : Entry :=
  ⟨(0, 0), ['C', 'A'], insert ((0 : ℤ), (0 : ℤ)) {((1 : ℤ), (0 : ℤ))}⟩

/-- C8: the search terminates: every enqueued extension strictly grows the
visited set, whose in-bounds part grows by exactly one cell and is bounded
by the number of cells; consequently the loop finishes — with
queueMeasure-much fuel the fueled loop returns the while-loop result
rather than running out, for every queue. -/
theorem C8_search_terminates (board : Board) (rows cols : ℕ)
    (dict prefix_set : List Word) (queue : List Entry) (found : List Word)
    (e e2 : Entry) (h : e2 ∈ childEntries board rows cols prefix_set e) :
    e.visited ⊂ e2.visited ∧
    (e2.visited ∩ cellsFinset rows cols).card
      = (e.visited ∩ cellsFinset rows cols).card + 1 ∧
    (e2.visited ∩ cellsFinset rows cols).card ≤ rows * cols ∧
    bfsLoopFuel board rows cols dict prefix_set
        (queueMeasure rows cols queue) queue found
      = some (bfsLoop board rows cols dict prefix_set queue found) := by
  refine ⟨?_, childEntries_visited_card board rows cols prefix_set e e2 h,
    visited_card_le rows cols e2,
    bfsLoopFuel_sufficient board rows cols dict prefix_set _ queue found
      (le_refl _)⟩
  rw [mem_childEntries] at h
  obtain ⟨q, _, _, hqnv, _, rfl⟩ := h
  exact Finset.ssubset_insert hqnv

/-- Witness for C8 at a concrete extension step and start queue. -/
theorem C8_search_terminates_witness :
    demoEntry.visited ⊂ demoEntry2.visited ∧
    (demoEntry2.visited ∩ cellsFinset 2 2).card
      = (demoEntry.visited ∩ cellsFinset 2 2).card + 1 ∧
    (demoEntry2.visited ∩ cellsFinset 2 2).card ≤ 2 * 2 ∧
    bfsLoopFuel demoBoard 2 2 demoDict (build_prefix_set demoDict)
        (queueMeasure 2 2 [demoEntry]) [demoEntry] []
      = some (bfsLoop demoBoard 2 2 demoDict (build_prefix_set demoDict)
          [demoEntry] []) :=
  C8_search_terminates demoBoard 2 2 demoDict (build_prefix_set demoDict)
    [demoEntry] [] demoEntry demoEntry2 (by decide)

/-- C9: a missing dictionary file loads as the empty dictionary without
raising; with the empty dictionary, discovery returns no words on any
board, and every nonempty submission is reported not valid with the
found-words, count, and score untouched. -/
theorem C9_missing_dictionary_degrades (board : Board)
    (prefix_set : List Word) (s : GameState) (hgu : s.give_up = false)
    (hcw : s.current_word ≠ []) :
    load_dictionary none = [] ∧
    find_all_words board [] prefix_set = [] ∧
    checkWord [] s =
      { s with result_message := .notValid s.current_word
               current_word := []
               selected_positions := [] } :=
  ⟨rfl, find_all_words_nil_dict board prefix_set,
    checkWord_not_valid [] s hgu hcw (List.not_mem_nil _)⟩

/-- Witness for C9 at a concrete selecting state with current word Q. -/
theorem C9_missing_dictionary_degrades_witness :
    load_dictionary none = [] ∧
    find_all_words demoBoard [] [] = [] ∧
    checkWord [] stateSubmitQ =
      { stateSubmitQ with
          result_message := .notValid stateSubmitQ.current_word
          current_word := []
          selected_positions := [] } :=
  C9_missing_dictionary_degrades demoBoard [] stateSubmitQ rfl (by decide)

/-- C10: the displayed found-word count equals the length of the
found-words list: the equality holds in a fresh round and is preserved by
every event of the loop — submit of a valid word increments both, a reveal
credit increments both, and a reset returns both to zero and empty. -/
theorem C10_count_matches_list (dict prefix_set : List Word) (b : Board)
    (ev : GEvent) (s : GameState)
    (h : s.words_found_count = s.words_found_list.length) :
    (reset_game_state b).words_found_count
        = (reset_game_state b).words_found_list.length ∧
    (stepEvent dict prefix_set ev s).words_found_count
      = (stepEvent dict prefix_set ev s).words_found_list.length := by
  refine ⟨rfl, ?_⟩
  cases ev with
  | selectEv p =>
      show (selectTile s p).words_found_count
        = (selectTile s p).words_found_list.length
      unfold selectTile
      split_ifs <;> exact h
  | submitEv =>
      show (checkWord dict s).words_found_count
        = (checkWord dict s).words_found_list.length
      by_cases hgu : s.give_up = true
      · rw [checkWord_giveup dict s hgu]
        exact h
      · have hgu2 : s.give_up = false := by
          cases hb : s.give_up
          · rfl
          · exact absurd hb hgu
        by_cases hcw : s.current_word = []
        · rw [checkWord_empty_word dict s hgu2 hcw]
          exact h
        · by_cases hmem : s.current_word.map Char.toUpper ∈ dict
          · rw [checkWord_valid dict s hgu2 hcw hmem]
            show s.words_found_count + 1
              = (s.words_found_list ++ [s.current_word.map Char.toUpper]).length
            rw [List.length_append, h]
            rfl
          · rw [checkWord_not_valid dict s hgu2 hcw hmem]
            exact h
  | giveUpEv now =>
      show (giveUpClick dict prefix_set now s).words_found_count
        = (giveUpClick dict prefix_set now s).words_found_list.length
      unfold giveUpClick
      split_ifs <;> exact h
  | tickEv now fresh =>
      show (tickGiveUp now fresh s).words_found_count
        = (tickGiveUp now fresh s).words_found_list.length
      by_cases hg : s.give_up = true
      · by_cases hae : s.all_possible_words = []
        · rw [tick_noop_empty now fresh s hae]
          exact h
        · by_cases hidx : s.word_display_index < s.all_possible_words.length
          · by_cases htime : now - s.last_word_switch_time
                > s.display_interval
            · by_cases hw : s.all_possible_words.getD s.word_display_index []
                  ∈ s.words_found_list
              · rw [tick_advance_nocredit now fresh s hg hae hidx htime hw]
                exact h
              · rw [tick_advance_credit now fresh s hg hae hidx htime hw]
                show s.words_found_count + 1
                  = (sortWords (s.words_found_list
                      ++ [s.all_possible_words.getD s.word_display_index []])).length
                rw [length_sortWords, List.length_append, h]
                rfl
            · rw [tick_noop_waiting now fresh s hg hae hidx htime]
              exact h
          · by_cases hcomp : s.completed_adding_all = true
            · cases htc : s.time_give_up_completed with
              | none =>
                  rw [tick_stuck_none now fresh s hg hae hidx hcomp htc]
                  exact h
              | some T =>
                  by_cases ht : now - T > 5000
                  · rw [tick_reset now fresh s hg hae hidx hcomp T htc ht]
                    rfl
                  · rw [tick_wait now fresh s hg hae hidx hcomp T htc ht]
                    exact h
            · have hcomp2 : s.completed_adding_all = false := by
                cases hb : s.completed_adding_all
                · rfl
                · exact absurd hb hcomp
              rw [tick_complete now fresh s hg hae hidx hcomp2]
              exact h
      · rw [tick_noop_not_revealing now fresh s hg]
        exact h

/-- Witness for C10: a submit event from a fresh round. -/
theorem C10_count_matches_list_witness :
    (stepEvent demoDict [] GEvent.submitEv
        (reset_game_state demoBoard)).words_found_count
      = (stepEvent demoDict [] GEvent.submitEv
          (reset_game_state demoBoard)).words_found_list.length :=
  (C10_count_matches_list demoDict [] demoBoard GEvent.submitEv
    (reset_game_state demoBoard) rfl).2
